import Mathlib

/-!
Verification development for the `claw-standup` report generator
(`src/index.js`).

The program aggregates git commits from repositories found under a
workspace root together with dated memory-note files, builds a report
model, and renders it either as structured JSON or as Markdown text,
optionally prefixed by an AI-generated narrative.

The shallow embedding below models:
* JavaScript string primitives used by the code (`split`, `trim`,
  `startsWith` with a single-character argument) as executable functions
  on `String` / `List Char`;
* the filesystem and the external `git` / `gemini` process calls as
  explicit oracle parameters (`Workspace`, `Except Unit String`,
  `SpawnResult`), since the code only observes their results;
* each function of `src/index.js` (`getRepos`, `getGitLogs`,
  `getMemoryLogs`, the aggregation and statistics steps of `run`, the
  note digest, and the AI-summary splicing) as a Lean function over
  those oracles.

Filesystem paths are modelled as component lists (`List String`); the
code only ever joins one component (`path.join dir name`) and takes the
final component (`path.basename`), which the model renders as
`p ++ [name]` and `p.getLastD ""`.
-/

namespace ClawStandup

/-! ### JavaScript string primitives -/

/-- Whitespace test used by `String.prototype.trim` (the characters that
matter for this program's inputs). -/
def isWS (c : Char) : Bool :=
  c == ' ' || c == '\n' || c == '\t' || c == '\r'

/-- Trim whitespace from both ends of a character list. -/
def trimChars (l : List Char) : List Char :=
  ((l.dropWhile isWS).reverse.dropWhile isWS).reverse

/-- Model of JavaScript `s.trim()`. -/
def jsTrim (s : String) : String :=
  ⟨trimChars s.data⟩

/-- Split a character list at every occurrence of `sep`, the semantics of
JavaScript `s.split(sep)` for a single-character separator. -/
def splitCh (sep : Char) : List Char → List (List Char)
  | [] => [[]]
  | c :: cs =>
    if c == sep then
      [] :: splitCh sep cs
    else
      match splitCh sep cs with
      | [] => [[c]]
      | p :: ps => (c :: p) :: ps

/-- Model of JavaScript `s.split(sep)` for a one-character separator. -/
def jsSplit (sep : Char) (s : String) : List String :=
  (splitCh sep s.data).map fun cs => ⟨cs⟩

/-- Model of JavaScript `s.startsWith(c)` for a single character `c`. -/
def headIs (s : String) (c : Char) : Bool :=
  match s.data with
  | [] => false
  | d :: _ => d == c

/-- Model of `path.basename` on a component-list path. -/
def basename (p : List String) : String :=
  p.getLastD ""

/-! ### Data model -/

/-- A parsed commit record, as produced by `getGitLogs`
(src/index.js:82-85).  JavaScript array destructuring leaves missing
fields `undefined`, modelled by `Option`. -/
structure GitCommit where
  hash : Option String
  date : Option String
  msg : Option String
  repo : String
  deriving DecidableEq, Repr

/-- A memory-note entry (src/index.js:114). -/
structure Memory where
  date : String
  content : String
  deriving DecidableEq, Repr

/-- The summary statistics block of the report (src/index.js:144-148). -/
structure Stats where
  reposTouched : Nat
  totalCommits : Nat
  memoryEntries : Nat
  deriving DecidableEq, Repr

/-- The report model built by `run` (src/index.js:141-151). -/
structure Report where
  range : String
  author : String
  stats : Stats
  commits : List GitCommit
  memory : List Memory
  deriving DecidableEq, Repr

/-! ### Commit extractor (src/index.js:73-89) -/

/-- Parse one `git log` output line: `line.split('|')` destructured into
`[hash, date, msg]`, with `repo` set to the base name of the repository
path (src/index.js:83-84). -/
def parseLine (repoPath : List String) (line : String) : GitCommit :=
  let parts := jsSplit '|' line
  { hash := parts[0]?, date := parts[1]?, msg := parts[2]?,
    repo := basename repoPath }

/-- `getGitLogs` (src/index.js:73-89).  The external `execSync` call is
an oracle argument: `Except.error` models the `catch` branch taken when
the process cannot be invoked or exits with an error; `Except.ok raw`
models its captured standard output.  `days` and `author` only shape the
command string handed to the oracle, so they are carried but unused. -/
def getGitLogs (repoPath : List String) (days : Nat) (author : String)
    (execResult : Except Unit String) : List GitCommit :=
  match execResult with
  | .error _ => []
  | .ok raw =>
    let output := jsTrim raw
    if output == "" then []
    else (jsSplit '\n' output).map (parseLine repoPath)

/-! ### Repository locator (src/index.js:47-71) -/

/-- What the code observes about one entry of `readdirSync(dir)`:
its name, whether it is a directory, and whether `entry/.git` exists. -/
structure DirEntry where
  name : String
  isDirectory : Bool
  hasGitMarker : Bool
  deriving DecidableEq, Repr

/-- What the code observes about the workspace root: whether
`root/.git` exists, and the result of `readdirSync(root)` (`none`
models the `catch` branch when the directory cannot be listed). -/
structure Workspace where
  rootHasGit : Bool
  entries : Option (List DirEntry)
  deriving DecidableEq, Repr

/-- `getRepos` (src/index.js:47-71): the root itself when it has a
`.git` marker, then each immediate subdirectory that is a directory,
is not named `.git` or `node_modules`, and has a `.git` marker. -/
def getRepos (dir : List String) (ws : Workspace) : List (List String) :=
  let repos := if ws.rootHasGit then [dir] else []
  match ws.entries with
  | none => repos
  | some es =>
    repos ++ es.filterMap fun e =>
      if e.isDirectory && e.name != ".git" && e.name != "node_modules" then
        if e.hasGitMarker then some (dir ++ [e.name]) else none
      else none

/-! ### Note reader (src/index.js:91-118) -/

/-- One iteration of the `getMemoryLogs` loop body (src/index.js:95-116):
`dateStr i` is the ISO date string of the day `i` days before today;
`wsMem` and `cwdMem` are the filesystem oracles for
`WORKSPACE/memory/<date>.md` and `cwd/memory/<date>.md` (`some content`
iff the file exists, carrying its full text).  The workspace path is
tried first and the cwd path is the fallback; a hit pushes one entry,
a miss pushes nothing. -/
def memPick (dateStr : Nat → String) (wsMem cwdMem : String → Option String)
    (i : Nat) : Option Memory :=
  match wsMem (dateStr i) with
  | some content => some ⟨dateStr i, content⟩
  | none =>
    match cwdMem (dateStr i) with
    | some content => some ⟨dateStr i, content⟩
    | none => none

/-- `getMemoryLogs` (src/index.js:91-118): the loop `for i in [0, days)`
pushing at most one entry per iteration, i.e. a `filterMap` of `memPick`
over `List.range days`. -/
def getMemoryLogs (days : Nat) (dateStr : Nat → String)
    (wsMem cwdMem : String → Option String) : List Memory :=
  (List.range days).filterMap (memPick dateStr wsMem cwdMem)

/-! ### Aggregation (src/index.js:125-151) -/

/-- Lexicographic (code-point) string comparison, the model of the
`localeCompare`-based ordering used by the commit sort. -/
def strLeAux : List Char → List Char → Bool
  | [], _ => true
  | _ :: _, [] => false
  | a :: as, b :: bs =>
    if a.toNat < b.toNat then true
    else if b.toNat < a.toNat then false
    else strLeAux as bs

/-- `strLe a b` means `a` is lexically at most `b`. -/
def strLe (a b : String) : Bool :=
  strLeAux a.data b.data

/-- The sort key: a commit's date string.  `git log` with the fixed
`%h|%ad|%s` format always yields a second field, so `date` is defined on
every reachable record; `getD` totalises the comparator. -/
def dateKey (c : GitCommit) : String :=
  c.date.getD ""

/-- Insert a commit into a list, in front of the first element whose
date is lexically at most the inserted commit's date.  This is the
stable descending insertion realising
`allCommits.sort((a, b) => b.date.localeCompare(a.date))`
(src/index.js:137): JavaScript `Array.prototype.sort` is stable and
this comparator orders by date descending. -/
def insertByDateDesc (c : GitCommit) : List GitCommit → List GitCommit
  | [] => [c]
  | d :: ds =>
    if strLe (dateKey d) (dateKey c) then c :: d :: ds
    else d :: insertByDateDesc c ds

/-- Stable sort of the commit list by date descending. -/
def sortByDateDesc : List GitCommit → List GitCommit
  | [] => []
  | c :: cs => insertByDateDesc c (sortByDateDesc cs)

/-- The concatenation loop of `run` (src/index.js:128-133): per-repo
lists are appended in order, skipping empty ones. -/
def concatNonEmpty (perRepo : List (List GitCommit)) : List GitCommit :=
  perRepo.foldl (fun acc cs => if cs.length > 0 then acc ++ cs else acc) []

/-- The aggregation step of `run`: concatenate the per-repository commit
lists in locator order, then sort globally by date descending
(src/index.js:128-137). -/
def aggregateCommits (perRepo : List (List GitCommit)) : List GitCommit :=
  sortByDateDesc (concatNonEmpty perRepo)

/-- Model of `[...new Set(l)]`: deduplicate keeping first occurrences in
insertion order (src/index.js:145). -/
def jsSetList (l : List String) : List String :=
  l.foldl (fun acc s => if s ∈ acc then acc else acc ++ [s]) []

/-- The report model constructed by `run` (src/index.js:120-151), as a
function of the filesystem and process oracles. -/
def runReport (root : List String) (ws : Workspace)
    (git : List String → Except Unit String) (days : Nat) (author : String)
    (dateStr : Nat → String) (wsMem cwdMem : String → Option String) :
    Report :=
  let repos := getRepos root ws
  let allCommits :=
    aggregateCommits (repos.map fun r => getGitLogs r days author (git r))
  let memories := getMemoryLogs days dateStr wsMem cwdMem
  { range := toString days ++ " days"
    author := author
    stats :=
      { reposTouched := (jsSetList (allCommits.map (·.repo))).length
        totalCommits := allCommits.length
        memoryEntries := memories.length }
    commits := allCommits
    memory := memories }

/-! ### Renderer: note digest (src/index.js:184-197) -/

/-- The fixed truncation notice appended after each note digest
(src/index.js:195). -/
def truncNotice : String :=
  "\n... (see file for full details)\n\n"

/-- The line filter of the note digest (src/index.js:192):
`l.startsWith('#') || l.trim().startsWith('-') || l.trim().length > 0`. -/
def qualifies (l : String) : Bool :=
  headIs l '#' || headIs (jsTrim l) '-' || decide ((jsTrim l).length > 0)

/-- The lines kept by the note digest (src/index.js:191-194): the
qualifying lines of the raw content, first 10 only, in original order. -/
def digestLines (content : String) : List String :=
  ((jsSplit '\n' content).filter qualifies).take 10

/-- The digest rendered for one note entry (src/index.js:191-195):
kept lines joined with newlines, followed by the truncation notice. -/
def digest (content : String) : String :=
  String.intercalate "\n" (digestLines content) ++ truncNotice

/-- The predicate of the specification: a line is kept when it is
non-empty after trimming, or starts with the heading marker, or its
trimmed form starts with the list marker. -/
def specQualifies (l : String) : Prop :=
  jsTrim l ≠ "" ∨ headIs l '#' = true ∨ headIs (jsTrim l) '-' = true

instance specQualifiesDecidable : DecidablePred specQualifies := fun l => by
  unfold specQualifies
  infer_instance

/-! ### Renderer: AI summary splicing (src/index.js:200-228) -/

/-- What the code observes about `spawnSync('gemini', [prompt])`:
whether the invocation itself failed (`result.error`), and the captured
output streams. -/
structure SpawnResult where
  error : Bool
  stdout : String
  stderr : String
  deriving DecidableEq, Repr

/-- The notice appended when the `gemini` executable cannot be run
(src/index.js:219). -/
def aiFailExecNotice : String :=
  "\n## ⚠️ AI Summary Failed\nCould not execute 'gemini' command.\n"

/-- The AI-summary splicing of `run` (src/index.js:216-224): given the
spawn result and the already-rendered text report, produce the final
text output.  A total function: report generation always completes. -/
def applyAI (res : SpawnResult) (output : String) : String :=
  if res.error then
    output ++ aiFailExecNotice
  else if res.stderr != "" && res.stdout == "" then
    output ++ ("\n## ⚠️ AI Summary Failed\n" ++ res.stderr ++ "\n")
  else
    "# Standup Report (AI Summary)\n\n" ++ res.stdout ++ "\n\n---\n\n" ++ output

/-! ### Structured-mode serialization (src/index.js:153-155)

Structured mode prints `JSON.stringify(data, null, 2)`
(src/index.js:154).  The JSON text layer (escaping, whitespace) is the
external JSON library; the repository-controlled content is the object
shape, modelled by the `Json` tree below.  `JSON.stringify` omits
object members whose value is `undefined`, which `encodeCommit` mirrors
by omitting absent optional fields; reading a missing member back in
JavaScript yields `undefined` again, i.e. `none`. -/

inductive Json where
  | str : String → Json
  | num : Nat → Json
  | arr : List Json → Json
  | obj : List (String × Json) → Json

/-- An optional object member: present iff the value is defined. -/
def optField (k : String) : Option String → List (String × Json)
  | none => []
  | some s => [(k, .str s)]

/-- The JSON shape of one commit record in `data.commits`
(src/index.js:149). -/
def encodeCommit (c : GitCommit) : Json :=
  .obj (optField "hash" c.hash ++ optField "date" c.date ++
    optField "msg" c.msg ++ [("repo", .str c.repo)])

/-- The JSON shape of one note entry in `data.memory`
(src/index.js:150). -/
def encodeMemory (m : Memory) : Json :=
  .obj [("date", .str m.date), ("content", .str m.content)]

/-- The JSON shape of `data.stats` (src/index.js:144-148). -/
def encodeStats (s : Stats) : Json :=
  .obj [("reposTouched", .num s.reposTouched),
    ("totalCommits", .num s.totalCommits),
    ("memoryEntries", .num s.memoryEntries)]

/-- The JSON shape of the whole `data` object (src/index.js:141-151). -/
def encodeReport (r : Report) : Json :=
  .obj [("range", .str r.range), ("author", .str r.author),
    ("stats", encodeStats r.stats),
    ("commits", .arr (r.commits.map encodeCommit)),
    ("memory", .arr (r.memory.map encodeMemory))]

/-- Member access on a parsed JSON object. -/
def lookupField : List (String × Json) → String → Option Json
  | [], _ => none
  | (k, v) :: fs, key => if k == key then some v else lookupField fs key

/-- Read a member back as a string, `none` when absent or non-string. -/
def asStr : Option Json → Option String
  | some (.str s) => some s
  | _ => none

/-- Read a member back as a number, `none` when absent or non-number. -/
def asNum : Option Json → Option Nat
  | some (.num n) => some n
  | _ => none

/-- Recover a commit record from its JSON shape. -/
def decodeCommit : Json → Option GitCommit
  | .obj fields =>
    match asStr (lookupField fields "repo") with
    | some repo =>
      some { hash := asStr (lookupField fields "hash"),
             date := asStr (lookupField fields "date"),
             msg := asStr (lookupField fields "msg"), repo := repo }
    | none => none
  | _ => none

/-- Recover a note entry from its JSON shape. -/
def decodeMemory : Json → Option Memory
  | .obj fields =>
    match asStr (lookupField fields "date"),
        asStr (lookupField fields "content") with
    | some date, some content => some ⟨date, content⟩
    | _, _ => none
  | _ => none

/-- Recover the statistics block from its JSON shape. -/
def decodeStats : Json → Option Stats
  | .obj fields =>
    match asNum (lookupField fields "reposTouched"),
        asNum (lookupField fields "totalCommits"),
        asNum (lookupField fields "memoryEntries") with
    | some rt, some tc, some me => some ⟨rt, tc, me⟩
    | _, _, _ => none
  | _ => none

/-- Decode every element of a JSON array, failing if any element
fails. -/
def decodeList {α : Type} (f : Json → Option α) : List Json → Option (List α)
  | [] => some []
  | j :: js =>
    match f j, decodeList f js with
    | some a, some as => some (a :: as)
    | _, _ => none

/-- Recover the full report model from its JSON shape. -/
def decodeReport : Json → Option Report
  | .obj fields =>
    match asStr (lookupField fields "range"),
        asStr (lookupField fields "author"),
        (lookupField fields "stats").bind decodeStats with
    | some range, some author, some stats =>
      match lookupField fields "commits", lookupField fields "memory" with
      | some (.arr cjs), some (.arr mjs) =>
        match decodeList decodeCommit cjs, decodeList decodeMemory mjs with
        | some commits, some memory =>
          some { range := range, author := author, stats := stats,
                 commits := commits, memory := memory }
        | _, _ => none
      | _, _ => none
    | _, _, _ => none
  | _ => none

/-! ### Lemmas about the string primitives -/

theorem strMk_data (s : String) : String.mk s.data = s := rfl

theorem splitCh_no_sep (sep : Char) (l : List Char) (h : sep ∉ l) :
    splitCh sep l = [l] := by
  induction l with
  | nil => rfl
  | cons c cs ih =>
    rw [List.mem_cons, not_or] at h
    have hc : (c == sep) = false := by
      simp only [beq_eq_false_iff_ne, ne_eq]
      exact fun hcs => h.1 hcs.symm
    rw [splitCh, hc, ih h.2]
    simp

theorem splitCh_append (sep : Char) (a b : List Char) (h : sep ∉ a) :
    splitCh sep (a ++ sep :: b) = a :: splitCh sep b := by
  induction a with
  | nil => simp [splitCh]
  | cons c cs ih =>
    rw [List.mem_cons, not_or] at h
    have hc : (c == sep) = false := by
      simp only [beq_eq_false_iff_ne, ne_eq]
      exact fun hcs => h.1 hcs.symm
    rw [List.cons_append, splitCh, hc, ih h.2]
    simp

theorem splitCh_head (sep : Char) (l : List Char) :
    (splitCh sep l).head? = some (l.takeWhile fun c => c != sep) := by
  induction l with
  | nil => rfl
  | cons c cs ih =>
    by_cases hc : c = sep
    · subst hc
      simp [splitCh, List.takeWhile]
    · have hcb : (c == sep) = false := by simpa using hc
      rw [splitCh, hcb]
      simp only [Bool.false_eq_true, if_false]
      cases hsc : splitCh sep cs with
      | nil => rw [hsc] at ih; simp at ih
      | cons p ps =>
        rw [hsc] at ih
        simp only [List.head?, Option.some.injEq] at ih ⊢
        have hbne : (c != sep) = true := by simp [bne, hcb]
        simp [List.takeWhile, hbne, ih]

/-! ### Claim C5: log-query failure yields an empty sequence -/

/-- Claim C5: for every repository path, day count, and author, when the
underlying log query fails (the `execSync` call throws: not a
repository, process not invocable, or nonzero exit), `getGitLogs`
returns the empty sequence for that repository instead of raising, so a
broken repository cannot abort aggregation of the others. -/
theorem getGitLogs_error_empty (repoPath : List String) (days : Nat)
    (author : String) (e : Unit) :
    getGitLogs repoPath days author (.error e) = [] := rfl

/-! ### Claim C10: field assignment of the log-line parser -/

/-- Claim C10 (implicit): the parser assigns the first `|`-delimited
field to `hash`, the second to `date`, and only the third to `msg`.  A
subject containing `|` is truncated at its first `|` (hash and date stay
correct, the tail is dropped); a line with fewer than three fields
yields a record whose missing fields are `none`; being a total function,
the parser never throws. -/
theorem parseLine_fields (repoPath : List String) :
    (∀ h d s : String, '|' ∉ h.data → '|' ∉ d.data →
      parseLine repoPath (h ++ "|" ++ d ++ "|" ++ s) =
        { hash := some h, date := some d,
          msg := some ⟨s.data.takeWhile fun c => c != '|'⟩,
          repo := basename repoPath }) ∧
    (∀ line : String, '|' ∉ line.data →
      parseLine repoPath line =
        { hash := some line, date := none, msg := none,
          repo := basename repoPath }) ∧
    (∀ h d : String, '|' ∉ h.data → '|' ∉ d.data →
      parseLine repoPath (h ++ "|" ++ d) =
        { hash := some h, date := some d, msg := none,
          repo := basename repoPath }) := by
  refine ⟨fun h d s hh hd => ?_, fun line hl => ?_, fun h d hh hd => ?_⟩
  · have hdata : (h ++ "|" ++ d ++ "|" ++ s).data =
        h.data ++ '|' :: (d.data ++ '|' :: s.data) := by
      simp [String.data_append]
    have hsplit : splitCh '|' (h ++ "|" ++ d ++ "|" ++ s).data =
        h.data :: d.data :: splitCh '|' s.data := by
      rw [hdata, splitCh_append '|' _ _ hh, splitCh_append '|' _ _ hd]
    have hhead := splitCh_head '|' s.data
    rw [parseLine, jsSplit, hsplit]
    cases hsc : splitCh '|' s.data with
    | nil => rw [hsc] at hhead; simp at hhead
    | cons p ps =>
      rw [hsc] at hhead
      simp only [List.head?, Option.some.injEq] at hhead
      simp [hhead]
  · have hsplit : splitCh '|' line.data = [line.data] :=
      splitCh_no_sep '|' line.data hl
    rw [parseLine, jsSplit, hsplit]
    simp
  · have hdata : (h ++ "|" ++ d).data = h.data ++ '|' :: d.data := by
      simp [String.data_append]
    have hsplit : splitCh '|' (h ++ "|" ++ d).data =
        h.data :: splitCh '|' d.data := by
      rw [hdata, splitCh_append '|' _ _ hh]
    rw [parseLine, jsSplit, hsplit, splitCh_no_sep '|' d.data hd]
    simp

/-- Witness for C10 at concrete inputs, including a subject line that
contains the separator and a separator-free line. -/
theorem parseLine_fields_witness :
    parseLine ["ws", "proj"] ("a1b2c" ++ "|" ++ "2024-05-06" ++ "|" ++ "fix: a|b table") =
      { hash := some "a1b2c", date := some "2024-05-06",
        msg := some "fix: a", repo := "proj" } ∧
    parseLine ["ws", "proj"] "plainline" =
      { hash := some "plainline", date := none, msg := none,
        repo := "proj" } := by
  constructor
  · have := (parseLine_fields ["ws", "proj"]).1 "a1b2c" "2024-05-06"
      "fix: a|b table" (by decide) (by decide)
    simpa using this
  · exact (parseLine_fields ["ws", "proj"]).2.1 "plainline" (by decide)

/-! ### Claim C4: the repository locator -/

theorem getRepos_entry_eq (e : DirEntry) (p dir : List String) :
    ((if e.isDirectory && e.name != ".git" && e.name != "node_modules" then
        if e.hasGitMarker then some (dir ++ [e.name]) else none
      else none) = some p) ↔
      (p = dir ++ [e.name] ∧ e.isDirectory = true ∧ e.hasGitMarker = true ∧
        e.name ≠ ".git" ∧ e.name ≠ "node_modules") := by
  by_cases h1 : (e.isDirectory && e.name != ".git" && e.name != "node_modules") = true
  · by_cases h2 : e.hasGitMarker = true
    · rw [if_pos h1, if_pos h2]
      rw [Bool.and_eq_true, Bool.and_eq_true] at h1
      simp only [Option.some.injEq]
      constructor
      · intro h
        exact ⟨h.symm, h1.1.1, h2, bne_iff_ne.mp h1.1.2, bne_iff_ne.mp h1.2⟩
      · rintro ⟨rfl, _⟩
        rfl
    · rw [if_pos h1, if_neg h2]
      constructor
      · intro h
        exact absurd h (by simp)
      · rintro ⟨_, _, hgit, _⟩
        exact absurd hgit h2
  · rw [if_neg h1]
    constructor
    · intro h
      exact absurd h (by simp)
    · rintro ⟨_, hdir, _, hne1, hne2⟩
      exact absurd (by simp [hdir, bne_iff_ne, hne1, hne2]) h1

/-- Claim C4: for every root directory, the locator returns exactly the
root itself when it has the `.git` marker, plus every immediate
subdirectory with the marker that is not named `node_modules` or
`.git`; every result is the root or one level below it; and when the
root's entries cannot be listed the locator returns (no failure is
raised), that branch contributing zero candidates. -/
theorem getRepos_spec (dir : List String) (ws : Workspace) :
    (∀ p, p ∈ getRepos dir ws ↔
      (p = dir ∧ ws.rootHasGit = true) ∨
      (∃ es, ws.entries = some es ∧ ∃ e ∈ es,
        p = dir ++ [e.name] ∧ e.isDirectory = true ∧ e.hasGitMarker = true ∧
        e.name ≠ ".git" ∧ e.name ≠ "node_modules")) ∧
    (∀ p ∈ getRepos dir ws, p = dir ∨ ∃ n : String, p = dir ++ [n]) ∧
    (ws.entries = none → getRepos dir ws = if ws.rootHasGit then [dir] else []) := by
  have hmem : ∀ p, p ∈ getRepos dir ws ↔
      (p = dir ∧ ws.rootHasGit = true) ∨
      (∃ es, ws.entries = some es ∧ ∃ e ∈ es,
        p = dir ++ [e.name] ∧ e.isDirectory = true ∧ e.hasGitMarker = true ∧
        e.name ≠ ".git" ∧ e.name ≠ "node_modules") := by
    intro p
    cases hes : ws.entries with
    | none =>
      rw [getRepos, hes]
      cases hroot : ws.rootHasGit <;> simp
    | some es =>
      rw [getRepos, hes]
      simp only [List.mem_append, List.mem_filterMap]
      constructor
      · rintro (hrepos | ⟨e, he, heq⟩)
        · left
          cases hroot : ws.rootHasGit <;> rw [hroot] at hrepos <;>
            simp_all
        · exact Or.inr ⟨es, rfl, e, he, (getRepos_entry_eq e p dir).mp heq⟩
      · rintro (⟨rfl, hroot⟩ | ⟨es', hes', e, he, hcond⟩)
        · left; rw [hroot]; simp
        · right
          obtain rfl : es' = es := (Option.some.inj hes').symm
          exact ⟨e, he, (getRepos_entry_eq e p dir).mpr hcond⟩
  refine ⟨hmem, fun p hp => ?_, fun hes => ?_⟩
  · rcases (hmem p).mp hp with ⟨rfl, _⟩ | ⟨_, _, e, _, rfl, _⟩
    · exact Or.inl rfl
    · exact Or.inr ⟨e.name, rfl⟩
  · rw [getRepos, hes]

/-- Witness for C4: a root with the marker whose listing fails yields
just the root, and a normal two-entry listing yields the root plus the
one eligible subdirectory. -/
theorem getRepos_spec_witness :
    (["home", "ws"] ∈ getRepos ["home", "ws"] ⟨true, none⟩) ∧
    getRepos ["home", "ws"] ⟨true, none⟩ = [["home", "ws"]] ∧
    (["home", "ws", "proj"] ∈ getRepos ["home", "ws"]
      ⟨false, some [⟨"proj", true, true⟩, ⟨"node_modules", true, true⟩]⟩) := by
  refine ⟨?_, ?_, ?_⟩
  · exact (getRepos_spec ["home", "ws"] ⟨true, none⟩).1 _ |>.mpr
      (Or.inl ⟨rfl, rfl⟩)
  · exact (getRepos_spec ["home", "ws"] ⟨true, none⟩).2.2 rfl
  · exact ((getRepos_spec ["home", "ws"] _).1 _).mpr
      (Or.inr ⟨_, rfl, ⟨"proj", true, true⟩, by simp, rfl, rfl, rfl,
        by decide, by decide⟩)

/-! ### Claim C6: the note reader -/

theorem filterMap_map_key {α β γ : Type _} (f : α → Option β) (g : β → γ)
    (key : α → γ) (l : List α)
    (h : ∀ a ∈ l, ∀ b, f a = some b → g b = key a) :
    (l.filterMap f).map g = (l.filter fun a => (f a).isSome).map key := by
  induction l with
  | nil => rfl
  | cons a l ih =>
    have ih' := ih fun a ha => h a (List.mem_cons_of_mem _ ha)
    cases hfa : f a with
    | none => simp [List.filterMap_cons, List.filter_cons, hfa, ih']
    | some b =>
      simp [List.filterMap_cons, List.filter_cons, hfa, ih',
        h a (List.mem_cons_self a l) b hfa]

theorem memPick_isSome (dateStr : Nat → String)
    (wsMem cwdMem : String → Option String) (i : Nat) :
    (memPick dateStr wsMem cwdMem i).isSome =
      ((wsMem (dateStr i)).isSome || (cwdMem (dateStr i)).isSome) := by
  cases hws : wsMem (dateStr i) <;> cases hcwd : cwdMem (dateStr i) <;>
    simp [memPick, hws, hcwd]

theorem memPick_date (dateStr : Nat → String)
    (wsMem cwdMem : String → Option String) (i : Nat) (m : Memory)
    (h : memPick dateStr wsMem cwdMem i = some m) : m.date = dateStr i := by
  rw [memPick] at h
  cases hws : wsMem (dateStr i) <;> rw [hws] at h
  · cases hcwd : cwdMem (dateStr i) <;> rw [hcwd] at h
    · exact absurd h (by simp)
    · cases h; rfl
  · cases h; rfl

theorem memPick_content (dateStr : Nat → String)
    (wsMem cwdMem : String → Option String) (i : Nat) (m : Memory)
    (h : memPick dateStr wsMem cwdMem i = some m) :
    wsMem (dateStr i) = some m.content ∨
      (wsMem (dateStr i) = none ∧ cwdMem (dateStr i) = some m.content) := by
  rw [memPick] at h
  cases hws : wsMem (dateStr i) <;> rw [hws] at h
  · cases hcwd : cwdMem (dateStr i) <;> rw [hcwd] at h
    · exact absurd h (by simp)
    · cases h; exact Or.inr ⟨rfl, rfl⟩
  · cases h; exact Or.inl rfl

/-- Claim C6: for every day count `D ≥ 1`, the note reader scans the
`D` most recent days today-first (indices `0 .. D-1` of days back); a
date yields an entry exactly when the workspace-anchored or the
cwd-anchored notes file exists, the workspace-anchored one winning and
the file's full text becoming the content; dates with no file are
skipped without error; the result has at most one entry per date and at
most `D` entries. -/
theorem getMemoryLogs_spec (days : Nat) (dateStr : Nat → String)
    (wsMem cwdMem : String → Option String)
    (hdays : 1 ≤ days)
    (hinj : ∀ i j, i < days → j < days → dateStr i = dateStr j → i = j) :
    (getMemoryLogs days dateStr wsMem cwdMem).map Memory.date =
      ((List.range days).filter fun i =>
        (wsMem (dateStr i)).isSome || (cwdMem (dateStr i)).isSome).map dateStr ∧
    (getMemoryLogs days dateStr wsMem cwdMem).length ≤ days ∧
    ((getMemoryLogs days dateStr wsMem cwdMem).map Memory.date).Nodup ∧
    (∀ m ∈ getMemoryLogs days dateStr wsMem cwdMem, ∃ i, i < days ∧
      m.date = dateStr i ∧
      (wsMem m.date = some m.content ∨
        (wsMem m.date = none ∧ cwdMem m.date = some m.content))) := by
  have hdates : (getMemoryLogs days dateStr wsMem cwdMem).map Memory.date =
      ((List.range days).filter fun i =>
        (wsMem (dateStr i)).isSome || (cwdMem (dateStr i)).isSome).map dateStr := by
    rw [getMemoryLogs, filterMap_map_key (memPick dateStr wsMem cwdMem)
      Memory.date dateStr _ (fun i _ m hm => memPick_date _ _ _ _ _ hm)]
    congr 1
    exact List.filter_congr fun i _ => memPick_isSome dateStr wsMem cwdMem i
  refine ⟨hdates, ?_, ?_, ?_⟩
  · calc (getMemoryLogs days dateStr wsMem cwdMem).length
        ≤ (List.range days).length := List.length_filterMap_le _ _
      _ = days := List.length_range days
  · rw [hdates]
    refine List.Nodup.map_on ?_ (List.Nodup.filter _ (List.nodup_range days))
    intro i hi j hj hij
    exact hinj i j (List.mem_range.mp (List.mem_of_mem_filter hi))
      (List.mem_range.mp (List.mem_of_mem_filter hj)) hij
  · intro m hm
    rw [getMemoryLogs, List.mem_filterMap] at hm
    obtain ⟨i, hi, hfi⟩ := hm
    refine ⟨i, List.mem_range.mp hi, memPick_date _ _ _ _ _ hfi, ?_⟩
    rw [memPick_date _ _ _ _ _ hfi]
    exact memPick_content _ _ _ _ _ hfi

/-- Witness for C6 with one scanned day, a present workspace note, and
an absent cwd note. -/
theorem getMemoryLogs_spec_witness :
    (getMemoryLogs 1 (fun _ => "2024-05-06") (fun _ => some "note text")
      (fun _ => none)).length ≤ 1 ∧
    ((getMemoryLogs 1 (fun _ => "2024-05-06") (fun _ => some "note text")
      (fun _ => none)).map Memory.date).Nodup :=
  ⟨(getMemoryLogs_spec 1 (fun _ => "2024-05-06") (fun _ => some "note text")
      (fun _ => none) (by omega) (fun i j hi hj _ => by omega)).2.1,
    (getMemoryLogs_spec 1 (fun _ => "2024-05-06") (fun _ => some "note text")
      (fun _ => none) (by omega) (fun i j hi hj _ => by omega)).2.2.1⟩

/-! ### Claim C7: AI summary failure and success handling -/

/-- Claim C7: when AI summarization is requested in text mode, an
invocation failure appends a visible failure notice after the unchanged
normal report; error-stream output with no standard output likewise
appends a notice carrying the error stream; on success the narrative is
prepended before the normal report behind a visible divider.  `applyAI`
is total, so report generation always completes. -/
theorem applyAI_spec (res : SpawnResult) (output : String) :
    (res.error = true → applyAI res output = output ++ aiFailExecNotice) ∧
    (res.error = false → res.stderr ≠ "" → res.stdout = "" →
      applyAI res output =
        output ++ ("\n## ⚠️ AI Summary Failed\n" ++ res.stderr ++ "\n")) ∧
    (res.error = false → (res.stderr = "" ∨ res.stdout ≠ "") →
      applyAI res output =
        "# Standup Report (AI Summary)\n\n" ++ res.stdout ++
          "\n\n---\n\n" ++ output) := by
  refine ⟨fun herr => ?_, fun herr hstderr hstdout => ?_,
    fun herr hok => ?_⟩
  · rw [applyAI, if_pos herr]
  · rw [applyAI, if_neg (by simp [herr]), if_pos]
    simp [hstderr, hstdout]
  · rw [applyAI, if_neg (by simp [herr]), if_neg]
    rcases hok with hs | hs <;> simp [hs]

/-- Witness for C7: a failed invocation appends the notice after the
report; a successful one prepends the narrative and divider. -/
theorem applyAI_spec_witness :
    applyAI ⟨true, "", ""⟩ "REPORT" = "REPORT" ++ aiFailExecNotice ∧
    applyAI ⟨false, "narrative", ""⟩ "REPORT" =
      "# Standup Report (AI Summary)\n\n" ++ "narrative" ++
        "\n\n---\n\n" ++ "REPORT" :=
  ⟨(applyAI_spec ⟨true, "", ""⟩ "REPORT").1 rfl,
    (applyAI_spec ⟨false, "narrative", ""⟩ "REPORT").2.2 rfl
      (Or.inl rfl)⟩

/-! ### Claim C1: statistics of the report model -/

theorem jsSetList_aux (l acc : List String) (hacc : acc.Nodup) :
    (l.foldl (fun acc s => if s ∈ acc then acc else acc ++ [s]) acc).Nodup ∧
    (l.foldl (fun acc s => if s ∈ acc then acc else acc ++ [s]) acc).toFinset =
      acc.toFinset ∪ l.toFinset := by
  induction l generalizing acc with
  | nil => simp [hacc]
  | cons s l ih =>
    simp only [List.foldl_cons]
    by_cases hs : s ∈ acc
    · rw [if_pos hs]
      obtain ⟨h1, h2⟩ := ih acc hacc
      refine ⟨h1, ?_⟩
      rw [h2, List.toFinset_cons, Finset.union_insert,
        Finset.insert_eq_self.mpr (Finset.mem_union_left _ (List.mem_toFinset.mpr hs))]
    · rw [if_neg hs]
      have hacc' : (acc ++ [s]).Nodup := by
        simp [List.nodup_append, hacc, hs]
      obtain ⟨h1, h2⟩ := ih _ hacc'
      refine ⟨h1, ?_⟩
      rw [h2, List.toFinset_append, List.toFinset_cons]
      ext x
      simp
      tauto

/-- The size of the JavaScript `Set` of a list is the number of distinct
elements of the list. -/
theorem jsSetList_length (l : List String) :
    (jsSetList l).length = l.toFinset.card := by
  obtain ⟨h1, h2⟩ := jsSetList_aux l [] List.nodup_nil
  have hcard := List.toFinset_card_of_nodup h1
  rw [jsSetList, ← hcard, h2]
  simp

/-- Claim C1: in every report model constructed by a run,
`stats.totalCommits` is the length of the commit sequence,
`stats.reposTouched` is the number of distinct repo names among the
commit records, and both are `0` when the commit sequence is empty. -/
theorem runReport_stats (root : List String) (ws : Workspace)
    (git : List String → Except Unit String) (days : Nat) (author : String)
    (dateStr : Nat → String) (wsMem cwdMem : String → Option String) :
    (runReport root ws git days author dateStr wsMem cwdMem).stats.totalCommits =
      (runReport root ws git days author dateStr wsMem cwdMem).commits.length ∧
    (runReport root ws git days author dateStr wsMem cwdMem).stats.reposTouched =
      ((runReport root ws git days author dateStr wsMem cwdMem).commits.map
        GitCommit.repo).toFinset.card ∧
    ((runReport root ws git days author dateStr wsMem cwdMem).commits = [] →
      (runReport root ws git days author dateStr wsMem cwdMem).stats.totalCommits = 0 ∧
      (runReport root ws git days author dateStr wsMem cwdMem).stats.reposTouched = 0) := by
  refine ⟨rfl, jsSetList_length _, fun h => ?_⟩
  constructor
  · show (runReport root ws git days author dateStr wsMem cwdMem).commits.length = 0
    rw [h]
    rfl
  · have h2 : (runReport root ws git days author dateStr wsMem
        cwdMem).stats.reposTouched =
        ((runReport root ws git days author dateStr wsMem cwdMem).commits.map
          GitCommit.repo).toFinset.card := jsSetList_length _
    rw [h2, h]
    rfl

/-- Witness for C1: a run that locates no repository has empty commits
and zero statistics. -/
theorem runReport_stats_witness :
    (runReport ["ws"] ⟨false, none⟩ (fun _ => .error ()) 1 "me"
      (fun _ => "d") (fun _ => none) (fun _ => none)).stats.totalCommits = 0 ∧
    (runReport ["ws"] ⟨false, none⟩ (fun _ => .error ()) 1 "me"
      (fun _ => "d") (fun _ => none) (fun _ => none)).stats.reposTouched = 0 :=
  (runReport_stats ["ws"] ⟨false, none⟩ (fun _ => .error ()) 1 "me"
    (fun _ => "d") (fun _ => none) (fun _ => none)).2.2 rfl

/-! ### Claim C2: global date-descending stable sort -/

theorem strLeAux_refl (l : List Char) : strLeAux l l = true := by
  induction l with
  | nil => rfl
  | cons c cs ih => rw [strLeAux]; simp [Nat.lt_irrefl, ih]

theorem strLe_refl (s : String) : strLe s s = true :=
  strLeAux_refl s.data

theorem strLeAux_total (a b : List Char) :
    strLeAux a b = true ∨ strLeAux b a = true := by
  induction a generalizing b with
  | nil => exact Or.inl rfl
  | cons x xs ih =>
    cases b with
    | nil => exact Or.inr rfl
    | cons y ys =>
      rw [strLeAux, strLeAux]
      rcases Nat.lt_trichotomy x.toNat y.toNat with h | h | h
      · left; simp [h]
      · rcases ih ys with h' | h' <;>
          simp [h, Nat.lt_irrefl, h']
      · right; simp [h]

theorem strLe_total (a b : String) : strLe a b = true ∨ strLe b a = true :=
  strLeAux_total a.data b.data

theorem strLeAux_trans (a b c : List Char) (h1 : strLeAux a b = true)
    (h2 : strLeAux b c = true) : strLeAux a c = true := by
  induction a generalizing b c with
  | nil => rfl
  | cons x xs ih =>
    cases b with
    | nil => rw [strLeAux] at h1; exact absurd h1 (by simp)
    | cons y ys =>
      cases c with
      | nil => rw [strLeAux] at h2; exact absurd h2 (by simp)
      | cons z zs =>
        rw [strLeAux] at h1 h2 ⊢
        split_ifs at h1 h2 ⊢ <;>
          first
          | rfl
          | omega
          | exact ih ys zs h1 h2

theorem strLe_trans (a b c : String) (h1 : strLe a b = true)
    (h2 : strLe b c = true) : strLe a c = true :=
  strLeAux_trans a.data b.data c.data h1 h2

theorem strLe_of_not_strLe (a b : String) (h : ¬ strLe a b = true) :
    strLe b a = true :=
  (strLe_total a b).resolve_left h

theorem insertByDateDesc_perm (c : GitCommit) (l : List GitCommit) :
    List.Perm (insertByDateDesc c l) (c :: l) := by
  induction l with
  | nil => exact List.Perm.refl _
  | cons d ds ih =>
    rw [insertByDateDesc]
    by_cases h : strLe (dateKey d) (dateKey c) = true
    · rw [if_pos h]
    · rw [if_neg h]
      exact (ih.cons d).trans (List.Perm.swap c d ds)

theorem sortByDateDesc_perm (l : List GitCommit) :
    List.Perm (sortByDateDesc l) l := by
  induction l with
  | nil => exact List.Perm.refl _
  | cons c cs ih =>
    rw [sortByDateDesc]
    exact (insertByDateDesc_perm c (sortByDateDesc cs)).trans (ih.cons c)

theorem insertByDateDesc_pairwise (c : GitCommit) (l : List GitCommit)
    (h : l.Pairwise fun a b => strLe (dateKey b) (dateKey a) = true) :
    (insertByDateDesc c l).Pairwise
      fun a b => strLe (dateKey b) (dateKey a) = true := by
  induction l with
  | nil => simp [insertByDateDesc]
  | cons d ds ih =>
    rw [List.pairwise_cons] at h
    rw [insertByDateDesc]
    by_cases hle : strLe (dateKey d) (dateKey c) = true
    · rw [if_pos hle, List.pairwise_cons]
      refine ⟨?_, List.pairwise_cons.mpr h⟩
      intro x hx
      rcases List.mem_cons.mp hx with rfl | hx
      · exact hle
      · exact strLe_trans _ _ _ (h.1 x hx) hle
    · rw [if_neg hle, List.pairwise_cons]
      refine ⟨?_, ih h.2⟩
      intro x hx
      rcases List.mem_cons.mp ((insertByDateDesc_perm c ds).mem_iff.mp hx)
        with rfl | hx
      · exact strLe_of_not_strLe _ _ hle
      · exact h.1 x hx

theorem sortByDateDesc_pairwise (l : List GitCommit) :
    (sortByDateDesc l).Pairwise
      fun a b => strLe (dateKey b) (dateKey a) = true := by
  induction l with
  | nil => simp [sortByDateDesc]
  | cons c cs ih => exact insertByDateDesc_pairwise c _ ih

theorem insertByDateDesc_filter (c : GitCommit) (l : List GitCommit)
    (d : String) :
    (insertByDateDesc c l).filter (fun x => dateKey x == d) =
      if dateKey c == d then c :: l.filter (fun x => dateKey x == d)
      else l.filter (fun x => dateKey x == d) := by
  induction l with
  | nil =>
    rw [insertByDateDesc]
    by_cases hc : (dateKey c == d) = true <;>
      simp [List.filter, hc]
  | cons e es ih =>
    rw [insertByDateDesc]
    by_cases hle : strLe (dateKey e) (dateKey c) = true
    · rw [if_pos hle]
      by_cases hc : (dateKey c == d) = true <;>
        simp [List.filter_cons, hc]
    · rw [if_neg hle, List.filter_cons, ih]
      by_cases hc : (dateKey c == d) = true
      · have he : (dateKey e == d) = false := by
          rw [beq_eq_false_iff_ne]
          intro heq
          exact hle ((heq.trans (beq_iff_eq.mp hc).symm) ▸
            strLe_refl (dateKey e))
        simp [List.filter_cons, hc, he]
      · by_cases he : (dateKey e == d) = true <;>
          simp [List.filter_cons, hc, he]

theorem sortByDateDesc_filter (l : List GitCommit) (d : String) :
    (sortByDateDesc l).filter (fun x => dateKey x == d) =
      l.filter (fun x => dateKey x == d) := by
  induction l with
  | nil => rfl
  | cons c cs ih =>
    rw [sortByDateDesc, insertByDateDesc_filter, ih, List.filter_cons]

theorem concatNonEmpty_aux (ls : List (List GitCommit))
    (acc : List GitCommit) :
    ls.foldl (fun acc cs => if cs.length > 0 then acc ++ cs else acc) acc =
      acc ++ ls.flatten := by
  induction ls generalizing acc with
  | nil => simp
  | cons cs ls ih =>
    cases cs with
    | nil => simp [ih]
    | cons c cs' => simp [ih, List.append_assoc]

/-- The guarded concatenation loop of `run` is the plain concatenation
of the per-repository lists in order. -/
theorem concatNonEmpty_eq_flatten (ls : List (List GitCommit)) :
    concatNonEmpty ls = ls.flatten := by
  rw [concatNonEmpty, concatNonEmpty_aux]
  rfl

/-- Claim C2: the aggregated commit sequence is the concatenation of the
per-repository sequences in locator order, re-sorted globally by date
descending under lexical string comparison; it is a permutation of the
concatenation, pairwise sorted descending, and stable: for every date
key, the subsequence of commits with that key is exactly the one of the
concatenation, in the same order. -/
theorem aggregateCommits_spec (perRepo : List (List GitCommit)) :
    aggregateCommits perRepo = sortByDateDesc perRepo.flatten ∧
    List.Perm (aggregateCommits perRepo) perRepo.flatten ∧
    (aggregateCommits perRepo).Pairwise
      (fun a b => strLe (dateKey b) (dateKey a) = true) ∧
    ∀ d : String,
      (aggregateCommits perRepo).filter (fun c => dateKey c == d) =
        perRepo.flatten.filter (fun c => dateKey c == d) := by
  have hagg : aggregateCommits perRepo = sortByDateDesc perRepo.flatten := by
    rw [aggregateCommits, concatNonEmpty_eq_flatten]
  refine ⟨hagg, ?_, ?_, ?_⟩
  · rw [hagg]; exact sortByDateDesc_perm _
  · rw [hagg]; exact sortByDateDesc_pairwise _
  · intro d; rw [hagg]; exact sortByDateDesc_filter _ d

/-! ### Claim C9: the note digest -/

theorem qualifies_iff (l : String) : qualifies l = true ↔ specQualifies l := by
  rw [qualifies, specQualifies]
  simp only [Bool.or_eq_true, decide_eq_true_eq]
  constructor
  · rintro ((h | h) | h)
    · exact Or.inr (Or.inl h)
    · exact Or.inr (Or.inr h)
    · refine Or.inl fun heq => ?_
      rw [heq] at h
      simp at h
  · rintro (h | h | h)
    · refine Or.inr ?_
      have hd : (jsTrim l).data ≠ [] := fun hnil => h (String.ext hnil)
      have hpos : 0 < (jsTrim l).data.length := List.length_pos.mpr hd
      exact hpos
    · exact Or.inl (Or.inl h)
    · exact Or.inl (Or.inr h)

/-- Claim C9: for every note content, the digest body is exactly the
first 10 content lines that are non-empty after trimming or start with
a heading or list marker (the code's filter agrees pointwise with that
predicate), kept in original order as a sublist of the content's lines,
never more than 10, each qualifying; the rendered digest is those lines
followed by the fixed truncation notice. -/
theorem digestLines_spec (content : String) :
    digestLines content =
      ((jsSplit '\n' content).filter fun l => decide (specQualifies l)).take 10 ∧
    List.Sublist (digestLines content) (jsSplit '\n' content) ∧
    (digestLines content).length ≤ 10 ∧
    (∀ l ∈ digestLines content, specQualifies l) ∧
    digest content = String.intercalate "\n" (digestLines content) ++ truncNotice := by
  have hpt : ∀ l, qualifies l = decide (specQualifies l) := by
    intro l
    by_cases h : specQualifies l
    · rw [(qualifies_iff l).mpr h, decide_eq_true h]
    · have h1 : qualifies l = false := by
        rw [Bool.eq_false_iff]
        intro hq
        exact h ((qualifies_iff l).mp hq)
      rw [h1, decide_eq_false h]
  refine ⟨?_, ?_, ?_, ?_, rfl⟩
  · rw [digestLines, List.filter_congr fun l _ => hpt l]
  · exact (List.take_sublist _ _).trans (List.filter_sublist _)
  · rw [digestLines, List.length_take]
    exact min_le_left _ _
  · intro l hl
    have h1 : l ∈ (jsSplit '\n' content).filter qualifies :=
      (List.take_sublist _ _).subset hl
    exact (qualifies_iff l).mp (List.of_mem_filter h1)

/-- Witness for C9 on a concrete note whose second line is
whitespace-only and therefore dropped. -/
theorem digestLines_spec_witness :
    specQualifies "alpha" ∧ (digestLines "alpha\n  \nbeta").length ≤ 10 :=
  ⟨(digestLines_spec "alpha\n  \nbeta").2.2.2.1 "alpha" (by decide),
    (digestLines_spec "alpha\n  \nbeta").2.2.1⟩

/-! ### Claim C3: structured-mode serialization round trip -/

theorem decodeCommit_encodeCommit (c : GitCommit) :
    decodeCommit (encodeCommit c) = some c := by
  obtain ⟨hash, date, msg, repo⟩ := c
  cases hash <;> cases date <;> cases msg <;> rfl

theorem decodeMemory_encodeMemory (m : Memory) :
    decodeMemory (encodeMemory m) = some m := by
  obtain ⟨date, content⟩ := m
  rfl

theorem decodeStats_encodeStats (s : Stats) :
    decodeStats (encodeStats s) = some s := by
  obtain ⟨rt, tc, me⟩ := s
  rfl

theorem decodeList_map {α : Type} (f : Json → Option α) (g : α → Json)
    (l : List α) (h : ∀ x ∈ l, f (g x) = some x) :
    decodeList f (l.map g) = some l := by
  induction l with
  | nil => rfl
  | cons x xs ih =>
    rw [List.map_cons, decodeList, h x (List.mem_cons_self x xs),
      ih fun y hy => h y (List.mem_cons_of_mem x hy)]

/-- Claim C3: structured-mode serialization is lossless.  Decoding the
JSON shape of any report model reproduces it exactly: the range string,
author, all three statistics, every field of every commit record
(including absent optional fields) and of every note entry. -/
theorem decodeReport_encodeReport (r : Report) :
    decodeReport (encodeReport r) = some r := by
  obtain ⟨range, author, stats, commits, memory⟩ := r
  have hc : decodeList decodeCommit (commits.map encodeCommit) = some commits :=
    decodeList_map _ _ _ fun x _ => decodeCommit_encodeCommit x
  have hm : decodeList decodeMemory (memory.map encodeMemory) = some memory :=
    decodeList_map _ _ _ fun x _ => decodeMemory_encodeMemory x
  have hs : decodeStats (encodeStats stats) = some stats :=
    decodeStats_encodeStats stats
  simp [encodeReport, decodeReport, lookupField, asStr, hc, hm, hs]

/-! ### Claim C8: commit repo names and located repositories

The claim as frozen asserts that every commit record's `repo` field
equals the base name of *exactly one* located repository.  The code
never deduplicates base names: when the workspace root itself is a
repository and contains a subdirectory of the same name that is also a
repository (e.g. root `/a/b` with subdirectory `/a/b/b`), the locator
returns both, their base names coincide, and commits tagged with that
name match two located repositories.  What does hold is the amended
form: every commit record's `repo` field is the base name of at least
one located repository. -/

theorem getGitLogs_repo (repoPath : List String) (days : Nat)
    (author : String) (res : Except Unit String) :
    ∀ c ∈ getGitLogs repoPath days author res, c.repo = basename repoPath := by
  intro c hc
  cases res with
  | error e => exact absurd hc (by simp [getGitLogs])
  | ok raw =>
    rw [getGitLogs] at hc
    by_cases hout : (jsTrim raw == "") = true
    · rw [if_pos hout] at hc
      exact absurd hc (by simp)
    · rw [if_neg hout, List.mem_map] at hc
      obtain ⟨line, _, rfl⟩ := hc
      rfl

/-- Counterexample for C8 as stated: with root `["a","b"]` marked as a
repository and containing a repository subdirectory named `"b"`, the
locator returns two references whose base names are both `"b"`, and the
run's commits carry `repo = "b"`; so some commit's repo name does not
equal the base name of exactly one located repository. -/
theorem runReport_repo_not_unique :
    ¬ (∀ c ∈ (runReport ["a", "b"] ⟨true, some [⟨"b", true, true⟩]⟩
        (fun _ => .ok "h1|2024-01-01|fix") 1 "me" (fun _ => "2024-01-01")
        (fun _ => none) (fun _ => none)).commits,
      ∃! r, r ∈ getRepos ["a", "b"] ⟨true, some [⟨"b", true, true⟩]⟩ ∧
        basename r = c.repo) := by
  intro hclaim
  have hc : (⟨some "h1", some "2024-01-01", some "fix", "b"⟩ : GitCommit) ∈
      (runReport ["a", "b"] ⟨true, some [⟨"b", true, true⟩]⟩
        (fun _ => .ok "h1|2024-01-01|fix") 1 "me" (fun _ => "2024-01-01")
        (fun _ => none) (fun _ => none)).commits := by decide
  obtain ⟨r, ⟨_, _⟩, huniq⟩ := hclaim _ hc
  have h1 : (["a", "b"] : List String) = r :=
    huniq ["a", "b"] ⟨by decide, by decide⟩
  have h2 : (["a", "b", "b"] : List String) = r :=
    huniq ["a", "b", "b"] ⟨by decide, by decide⟩
  have : (["a", "b"] : List String) = ["a", "b", "b"] := h1.trans h2.symm
  exact absurd this (by decide)

/-- Claim C8 amended: every commit record in a run's report carries as
its `repo` field the base name of at least one repository reference
returned by the locator for that run (base names of distinct located
repositories need not be distinct, so "exactly one" fails; see the
counterexample). -/
theorem runReport_repo_basename (root : List String) (ws : Workspace)
    (git : List String → Except Unit String) (days : Nat) (author : String)
    (dateStr : Nat → String) (wsMem cwdMem : String → Option String) :
    ∀ c ∈ (runReport root ws git days author dateStr wsMem cwdMem).commits,
      ∃ r ∈ getRepos root ws, basename r = c.repo := by
  intro c hc
  have hcommits : (runReport root ws git days author dateStr wsMem
      cwdMem).commits = aggregateCommits ((getRepos root ws).map
        fun r => getGitLogs r days author (git r)) := rfl
  rw [hcommits, aggregateCommits, concatNonEmpty_eq_flatten] at hc
  have hc2 := (sortByDateDesc_perm _).subset hc
  rw [List.mem_flatten] at hc2
  obtain ⟨sub, hsub, hcsub⟩ := hc2
  rw [List.mem_map] at hsub
  obtain ⟨r, hr, rfl⟩ := hsub
  exact ⟨r, hr, (getGitLogs_repo r days author (git r) c hcsub).symm⟩

/-- Witness for the amended C8: a workspace whose root is the only
repository, with one parsed commit tagged with the root's base name. -/
theorem runReport_repo_basename_witness :
    ∃ r ∈ getRepos ["home", "ws"] ⟨true, none⟩, basename r = "ws" :=
  runReport_repo_basename ["home", "ws"] ⟨true, none⟩
    (fun _ => .ok "h7|2024-03-04|msg") 1 "me" (fun _ => "2024-03-04")
    (fun _ => none) (fun _ => none)
    ⟨some "h7", some "2024-03-04", some "msg", "ws"⟩ (by decide)

end ClawStandup
